import Mathlib

/-!
Verification of the Baum-Welch / forward-backward core of
`include/meta/sequence/hmm/hmm.h` (`meta::sequence::hmm::hidden_markov_model`).

Probabilities (C++ `double`) are embedded as rationals `ℚ`; logarithms are
interpreted in `ℝ` via `Real.log` at the statement level.  The collaborators
that live outside the given sources (`trellis.h`'s `forward_trellis::normalize`
and the expected-count stores of `markov_model.h` / the observation
distribution) are modelled from the spec, as flagged in the doc comments of the
corresponding definitions.
-/

namespace MetaHMM

/-- Hidden Markov model parameters: `K` hidden states, an initial distribution
`init`, a transition matrix `trans` (`trans i j` is the probability of moving
from state `i` to state `j`), and per-state emission probabilities `emit o s`
for observation `o` in state `s`.  This is the data held by
`hidden_markov_model`: `model_` (a `markov_model`) supplies `init`/`trans`
through `init_prob`/`trans_prob`, and `obs_dist_` supplies `emit` through
`probability(obs, state)`. -/
structure HmmModel where
  K : ℕ
  init : ℕ → ℚ
  trans : ℕ → ℕ → ℚ
  emit : ℕ → ℕ → ℚ

/-- The cached output-probability matrix `b(t, s) = P(o_t | s)` computed by
`output_probabilities`. -/
def outputProbs (m : HmmModel) (seq : List ℕ) : ℕ → ℕ → ℚ :=
  fun t s => m.emit (seq.getD t 0) s

/-- Modelled from the spec: `forward_trellis::normalize` (declared in
`trellis.h`, which is not among the sources) divides every state's value in the
column by the column's sum and records that sum as the scale factor (§4.1). -/
def normalizeCol (col : List ℚ) : List ℚ × ℚ :=
  (col.map (fun x => x / col.sum), col.sum)

/-- Raw column 0 of the forward trellis: `init_prob(s) * output_probs(0, s)`
(`hidden_markov_model::forward`, first loop). -/
def col0 (m : HmmModel) (b : ℕ → ℕ → ℚ) : List ℚ :=
  (List.range m.K).map (fun s => m.init s * b 0 s)

/-- Raw column `t ≥ 1` of the forward trellis, computed from the already
normalized previous column: `(Σ_j f(t-1,j) * trans(j,i)) * b(t,i)`
(`hidden_markov_model::forward`, second loop). -/
def nextColRaw (m : HmmModel) (b : ℕ → ℕ → ℚ) (prev : List ℚ) (t : ℕ) : List ℚ :=
  (List.range m.K).map (fun i =>
    ((List.range m.K).map (fun j => prev.getD j 0 * m.trans j i)).sum * b t i)

/-- The forward pass (`hidden_markov_model::forward`): every column is written
raw and then normalized, strictly left to right; the pair holds the normalized
column and its scale factor. -/
def forwardAux (m : HmmModel) (b : ℕ → ℕ → ℚ) : ℕ → List ℚ × ℚ
  | 0 => normalizeCol (col0 m b)
  | t + 1 => normalizeCol (nextColRaw m b (forwardAux m b t).1 (t + 1))

/-- Normalized forward trellis entry `f(t, s)` (`fwd.probability(t, s)`). -/
def fwdP (m : HmmModel) (b : ℕ → ℕ → ℚ) (t s : ℕ) : ℚ :=
  (forwardAux m b t).1.getD s 0

/-- Forward scale factor `c_t` (`fwd.normalizer(t)`). -/
def scaleF (m : HmmModel) (b : ℕ → ℕ → ℚ) (t : ℕ) : ℚ :=
  (forwardAux m b t).2

/-- Columns of the backward trellis (`hidden_markov_model::backward`), indexed
by the distance `k` from the last time step: `backAux … k` is the column at
time `t = T-1-k`.  `k = 0` is the all-ones last column; the column at distance
`k+1` holds `c_{t+1} * Σ_j g(t+1,j) * trans(i,j) * b(t+1,j)` where
`t+1 = T-1-k`, with `sc` the forward trellis's scale factors. -/
def backAux (m : HmmModel) (b : ℕ → ℕ → ℚ) (sc : ℕ → ℚ) (T : ℕ) : ℕ → List ℚ
  | 0 => List.replicate m.K 1
  | k + 1 =>
    (List.range m.K).map (fun i =>
      sc (T - 1 - k) *
        ((List.range m.K).map
          (fun j => (backAux m b sc T k).getD j 0 * m.trans i j * b (T - 1 - k) j)).sum)

/-- Backward trellis entry `g(t, i)` (`bwd.probability(t, i)`). -/
def bwdP (m : HmmModel) (b : ℕ → ℕ → ℚ) (T t i : ℕ) : ℚ :=
  (backAux m b (scaleF m b) T (T - 1 - t)).getD i 0

/-- Posterior state membership `gamma(t, ·)`
(`posterior_state_membership`): the products `f(t,j) * g(t,j)` renormalized to
sum to one over the states. -/
def gammaV (m : HmmModel) (b : ℕ → ℕ → ℚ) (T t i : ℕ) : ℚ :=
  let row := (List.range m.K).map (fun j => fwdP m b t j * bwdP m b T t j)
  (row.map (fun x => x / row.sum)).getD i 0

/-- The per-`(t,i,j)` weight `xi_tij` accumulated by
`expectation_maximization` (lines 270-274):
`(gamma(t,i) * trans(i,j) * b(t+1,j) * c_{t+1} * g(t+1,j)) / g(t,i)`. -/
def xiCode (m : HmmModel) (b : ℕ → ℕ → ℚ) (T t i j : ℕ) : ℚ :=
  gammaV m b T t i * m.trans i j * b (t + 1) j * scaleF m b (t + 1) *
    bwdP m b T (t + 1) j / bwdP m b T t i

/-- Expected-count store for one EM iteration.  The concrete stores are the
collaborators' `expected_counts` types (not among the sources); modelled from
the spec's capability contracts (§6) as total functions, zero outside the
model's ranges: initial-state soft counts, transition soft counts, and
emission soft counts. -/
structure CountsQ where
  initC : ℕ → ℚ
  transC : ℕ → ℕ → ℚ
  obsC : ℕ → ℕ → ℚ

/-- Fresh all-zero counts (`expected_counts()` of the collaborators; the
spec's identity element). -/
def zeroCountsQ : CountsQ :=
  ⟨fun _ => 0, fun _ _ => 0, fun _ _ => 0⟩

/-- `increment_initial(s, x)`, modelled from the spec (§6). -/
def addInit (c : CountsQ) (s : ℕ) (x : ℚ) : CountsQ :=
  { c with initC := fun a => if a = s then c.initC a + x else c.initC a }

/-- `increment_transition(i, j, x)`, modelled from the spec (§6). -/
def addTrans (c : CountsQ) (i j : ℕ) (x : ℚ) : CountsQ :=
  { c with transC := fun a b => if a = i ∧ b = j then c.transC a b + x else c.transC a b }

/-- emission-count `increment(o, s, x)`, modelled from the spec (§6). -/
def addObs (c : CountsQ) (o s : ℕ) (x : ℚ) : CountsQ :=
  { c with obsC := fun a b => if a = o ∧ b = s then c.obsC a b + x else c.obsC a b }

/-- Body of the outer state loop of `expectation_maximization`
(lines 256-286), for one state `i`: add `gamma(0,i)` to the initial counts;
for every `j` and every `t < T-1`, add the `xi_tij` weight to the `(i,j)`
transition counts; and for every `t < T`, add `gamma(t,i)` to the emission
counts of `(o_t, i)`. -/
def seqBody (m : HmmModel) (seq : List ℕ) (c : CountsQ) (i : ℕ) : CountsQ :=
  let b := outputProbs m seq
  let T := seq.length
  let c1 := addInit c i (gammaV m b T 0 i)
  let c2 := (List.range m.K).foldl
    (fun c j =>
      (List.range (T - 1)).foldl (fun c t => addTrans c i j (xiCode m b T t i j)) c)
    c1
  (List.range T).foldl (fun c t => addObs c (seq.getD t 0) i (gammaV m b T t i)) c2

/-- The per-sequence expected-count accumulation of
`expectation_maximization` (lines 256-286): the outer loop over the states. -/
def accumSeq (m : HmmModel) (seq : List ℕ) (c : CountsQ) : CountsQ :=
  (List.range m.K).foldl (seqBody m seq) c

/-- Outcome of `fit`: normal return on convergence, normal return when the
iteration budget is exhausted (carrying `old_ll`, where `none` stands for the
initial `std::numeric_limits<double>::lowest()`), or the thrown
"Log likelihood did not improve" error, carrying the iteration index at which
it fired. -/
inductive FitResult where
  | converged : ℚ → FitResult
  | exhausted : Option ℚ → FitResult
  | diverged : ℕ → FitResult

/-- The training loop of `fit` (lines 134-164).  `step` is one call of
`expectation_maximization`: from the current parameters it produces the
replaced parameters and the returned log likelihood.  `i` is the iteration
counter `iter`, `fuel` the remaining iterations out of `max_iters`, and
`old` the `old_ll` value (`none` models `lowest()`: with it neither the
divergence check nor the convergence check can fire).  The second component of
the result is the parameter state, which on every exit path — including the
thrown divergence error — is the one already replaced wholesale by
`expectation_maximization`. -/
def fitAux {σ : Type} (step : σ → σ × ℚ) (delta : ℚ) :
    ℕ → ℕ → σ → Option ℚ → FitResult × σ
  | _, 0, s, old => (.exhausted old, s)
  | i, fuel + 1, s, old =>
    let p := step s
    match old with
    | none => fitAux step delta (i + 1) fuel p.1 (some p.2)
    | some o =>
      if p.2 < o then (.diverged i, p.1)
      else if p.2 - o < delta then (.converged p.2, p.1)
      else fitAux step delta (i + 1) fuel p.1 (some p.2)

/-- `fit(instances, pool, options)`: run the loop from iteration 1 with
`old_ll = lowest()`. -/
def fitRun {σ : Type} (step : σ → σ × ℚ) (delta : ℚ) (maxIters : ℕ) (s0 : σ) :
    FitResult × σ :=
  fitAux step delta 1 maxIters s0 none

/-- Parameter state after `k` complete EM iterations from `s0`. -/
def iterEM {σ : Type} (step : σ → σ × ℚ) (s0 : σ) : ℕ → σ
  | 0 => s0
  | k + 1 => (step (iterEM step s0 k)).1

/-- Log likelihood computed by iteration `i ≥ 1` of the loop. -/
def llSeq {σ : Type} (step : σ → σ × ℚ) (s0 : σ) (i : ℕ) : ℚ :=
  (step (iterEM step s0 (i - 1))).2

/-- `expected_counts` (lines 208-228): per-worker accumulator holding the
emission soft counts, the chain soft counts and the partial log-likelihood
scalar.  The two sub-stores are modelled from the spec as total functions. -/
@[ext]
structure ExpCounts where
  obsC : ℕ → ℕ → ℚ
  initC : ℕ → ℚ
  transC : ℕ → ℕ → ℚ
  ll : ℚ

/-- The fresh accumulator (identity element: all-zero counts, zero
log likelihood; modelled from the spec §3/§6). -/
def ecZero : ExpCounts :=
  ⟨fun _ _ => 0, fun _ => 0, fun _ _ => 0, 0⟩

/-- `expected_counts::operator+=` (lines 217-223): componentwise addition of
the sub-stores and of the log-likelihood scalar. -/
def ecAdd (a c : ExpCounts) : ExpCounts :=
  ⟨fun o s => a.obsC o s + c.obsC o s, fun s => a.initC s + c.initC s,
   fun i j => a.transC i j + c.transC i j, a.ll + c.ll⟩

/-- Merge a list of accumulators into one, starting from the identity (the
pairwise/serial combination performed by `parallel::reduction`). -/
def ecSum (l : List ExpCounts) : ExpCounts :=
  l.foldl ecAdd ecZero

/-- Modelled from the spec: reconstructing the `markov_model` from aggregated
counts row-normalizes the initial counts and each row of the transition
counts (§6). -/
def reestimateChain (K : ℕ) (c : ExpCounts) : (ℕ → ℚ) × (ℕ → ℕ → ℚ) :=
  (fun s => c.initC s / ∑ j in Finset.range K, c.initC j,
   fun i j => c.transC i j / ∑ k in Finset.range K, c.transC i k)

/-- Observation distribution collaborator, at the interface the constructors
use: a reported state count (`num_states()`) and `probability(obs, state)`. -/
structure ObsDistE where
  numStates : ℕ
  prob : ℕ → ℕ → ℚ

/-- `markov_model` collaborator: reported state count, initial distribution
and transition matrix. -/
structure MarkovME where
  numStates : ℕ
  initP : ℕ → ℚ
  transP : ℕ → ℕ → ℚ

/-- The facade's members `obs_dist_` and `model_`. -/
structure HMME where
  obsDist : ObsDistE
  model : MarkovME

/-- The `hmm_exception` thrown by the constructors when the observation
distribution and the HMM have differing numbers of hidden states. -/
inductive HmmError where
  | statesMismatch : HmmError

/-- The random-initialization constructor (lines 80-89): the randomness is
abstracted as the supplied initial/transition distributions.  Modelled from
the spec in one respect: `markov_model`'s own constructor reports the
requested number of states. -/
def hmmRandomInit (numStates : ℕ) (ip : ℕ → ℚ) (tp : ℕ → ℕ → ℚ) (obs : ObsDistE) :
    Except HmmError HMME :=
  if obs.numStates ≠ numStates then .error .statesMismatch
  else .ok ⟨obs, ⟨numStates, ip, tp⟩⟩

/-- The uniform-initialization constructor (lines 106-113). -/
def hmmUniformInit (numStates : ℕ) (obs : ObsDistE) : Except HmmError HMME :=
  if obs.numStates ≠ numStates then .error .statesMismatch
  else .ok ⟨obs, ⟨numStates, fun _ => 1 / (numStates : ℚ), fun _ _ => 1 / (numStates : ℚ)⟩⟩

/-- Wholesale parameter replacement at the end of one EM iteration (lines
303-305): both members are reconstructed from the aggregated counts, whose
shape is that of the current model, so the reported state counts carry over.
Modelled from the spec for the two collaborator `reconstruct` operations
(§6). -/
def emReplace (h : HMME) (c : ExpCounts) : HMME :=
  ⟨⟨h.obsDist.numStates, fun o s => c.obsC o s⟩,
   ⟨h.model.numStates, (reestimateChain h.model.numStates c).1,
    (reestimateChain h.model.numStates c).2⟩⟩

/-- Transition and emission factors of one state path from time `t` onward,
starting out of state `prev`. -/
def pwTail (m : HmmModel) (b : ℕ → ℕ → ℚ) : ℕ → ℕ → List ℕ → ℚ
  | _, _, [] => 1
  | t, prev, s :: rest => m.trans prev s * b t s * pwTail m b (t + 1) s rest

/-- Following the spec's words: the joint probability of one state path — the
initial probability of its first state times the transition and emission
probabilities along it. -/
def pathWeight (m : HmmModel) (b : ℕ → ℕ → ℚ) : List ℕ → ℚ
  | [] => 1
  | s :: rest => m.init s * b 0 s * pwTail m b 1 s rest

/-- All state paths of length `T` over `K` states. -/
def pathsE (K : ℕ) : ℕ → List (List ℕ)
  | 0 => [[]]
  | T + 1 => (pathsE K T).flatMap (fun p => (List.range K).map (fun s => p ++ [s]))

/-- Following the spec's words: the brute-force (unscaled) probability of the
sequence, the sum over all state paths of initial, transition and emission
probabilities. -/
def bruteForceLik (m : HmmModel) (b : ℕ → ℕ → ℚ) (T : ℕ) : ℚ :=
  ((pathsE m.K T).map (pathWeight m b)).sum

/-- The unscaled forward recursion (proof device connecting the scaled
trellis with the path sum). -/
def unscaledF (m : HmmModel) (b : ℕ → ℕ → ℚ) : ℕ → ℕ → ℚ
  | 0, s => m.init s * b 0 s
  | t + 1, s => (∑ j in Finset.range m.K, unscaledF m b t j * m.trans j s) * b (t + 1) s

/-- The concrete scenario of the spec (§8): two states, symbols `A = 0` and
`B = 1`, initial `[1/2, 1/2]`, uniform transitions, emissions
`state 0: P(A) = 4/5, P(B) = 1/5` and `state 1: P(A) = 1/5, P(B) = 4/5`. -/
def c3m : HmmModel :=
  ⟨2, fun _ => 1/2, fun _ _ => 1/2,
   fun o s => if s = 0 then (if o = 0 then 4/5 else 1/5)
              else (if o = 0 then 1/5 else 4/5)⟩

/-- The scenario's sequence `[A, B]`. -/
def c3seq : List ℕ := [0, 1]

/-- The scenario's cached output probabilities. -/
def c3b : ℕ → ℕ → ℚ := outputProbs c3m c3seq

/-! ### List helper lemmas -/

lemma listSum_map_range (f : ℕ → ℚ) : ∀ n : ℕ,
    ((List.range n).map f).sum = ∑ i in Finset.range n, f i := by
  intro n
  induction n with
  | zero => simp
  | succ n ih => rw [List.range_succ, List.map_append, List.sum_append, Finset.sum_range_succ, ih]; simp

lemma getD_map_range (f : ℕ → ℚ) {i n : ℕ} (h : i < n) :
    ((List.range n).map f).getD i 0 = f i := by
  rw [List.getD_eq_getElem?_getD, List.getElem?_map, List.getElem?_range h]
  rfl

lemma getD_replicate_one {i n : ℕ} (h : i < n) :
    (List.replicate n (1 : ℚ)).getD i 0 = 1 := by
  induction n generalizing i with
  | zero => omega
  | succ n ih =>
    cases i with
    | zero => rfl
    | succ i => exact ih (by omega)

lemma map_getD_self (f : ℕ → ℚ) (n : ℕ) :
    (List.range n).map (fun s => ((List.range n).map f).getD s 0) = (List.range n).map f := by
  apply List.map_congr_left
  intro a ha
  exact getD_map_range f (List.mem_range.mp ha)

/-- The normalized forward column is the list of `fwdP` values over the state
range. -/
lemma forwardAux_fst (m : HmmModel) (b : ℕ → ℕ → ℚ) (t : ℕ) :
    (forwardAux m b t).1 = (List.range m.K).map (fwdP m b t) := by
  have key : ∀ col : List ℚ, (∃ g : ℕ → ℚ, col = (List.range m.K).map g) →
      (normalizeCol col).1 =
        (List.range m.K).map (fun s => (normalizeCol col).1.getD s 0) := by
    rintro col ⟨g, rfl⟩
    conv_lhs => rw [normalizeCol, List.map_map]
    rw [normalizeCol, List.map_map, map_getD_self]
  cases t with
  | zero => exact key (col0 m b) ⟨fun s => m.init s * b 0 s, rfl⟩
  | succ t =>
    exact key (nextColRaw m b (forwardAux m b t).1 (t + 1))
      ⟨fun i => ((List.range m.K).map
          (fun j => (forwardAux m b t).1.getD j 0 * m.trans j i)).sum * b (t + 1) i, rfl⟩

/-! ### Column formulas of the forward pass -/

lemma nextColRaw_getD (m : HmmModel) (b : ℕ → ℕ → ℚ) {t' j : ℕ} (hj : j < m.K) :
    (nextColRaw m b (forwardAux m b t').1 (t' + 1)).getD j 0 =
      (∑ k in Finset.range m.K, fwdP m b t' k * m.trans k j) * b (t' + 1) j := by
  rw [forwardAux_fst]
  simp only [nextColRaw]
  rw [getD_map_range _ hj]
  congr 1
  rw [listSum_map_range]
  refine Finset.sum_congr rfl ?_
  intro k hk
  rw [getD_map_range _ (Finset.mem_range.mp hk)]

lemma scaleF_zero_eq (m : HmmModel) (b : ℕ → ℕ → ℚ) :
    scaleF m b 0 = ∑ j in Finset.range m.K, m.init j * b 0 j := by
  show (col0 m b).sum = _
  rw [col0, listSum_map_range]

lemma fwdP_zero_eq (m : HmmModel) (b : ℕ → ℕ → ℚ) {s : ℕ} (hs : s < m.K) :
    fwdP m b 0 s = m.init s * b 0 s / scaleF m b 0 := by
  show ((col0 m b).map (fun x => x / (col0 m b).sum)).getD s 0 =
    m.init s * b 0 s / scaleF m b 0
  have hsc : scaleF m b 0 = (col0 m b).sum := rfl
  rw [hsc, col0, List.map_map, getD_map_range _ hs]
  rfl

lemma scaleF_succ_eq (m : HmmModel) (b : ℕ → ℕ → ℚ) (t : ℕ) :
    scaleF m b (t + 1) =
      ∑ j in Finset.range m.K, (∑ k in Finset.range m.K, fwdP m b t k * m.trans k j) *
        b (t + 1) j := by
  show (nextColRaw m b (forwardAux m b t).1 (t + 1)).sum = _
  simp only [nextColRaw, forwardAux_fst]
  rw [listSum_map_range]
  refine Finset.sum_congr rfl ?_
  intro j hj
  congr 1
  rw [listSum_map_range]
  refine Finset.sum_congr rfl ?_
  intro k hk
  rw [getD_map_range _ (Finset.mem_range.mp hk)]

lemma fwdP_succ_eq (m : HmmModel) (b : ℕ → ℕ → ℚ) (t : ℕ) {s : ℕ} (hs : s < m.K) :
    fwdP m b (t + 1) s =
      (∑ k in Finset.range m.K, fwdP m b t k * m.trans k s) * b (t + 1) s /
        scaleF m b (t + 1) := by
  show ((nextColRaw m b (forwardAux m b t).1 (t + 1)).map
      (fun x => x / (nextColRaw m b (forwardAux m b t).1 (t + 1)).sum)).getD s 0 = _
  have hsc : scaleF m b (t + 1) = (nextColRaw m b (forwardAux m b t).1 (t + 1)).sum := rfl
  have hgd : ∀ (l : List ℚ) (c : ℚ), (∃ g : ℕ → ℚ, l = (List.range m.K).map g) →
      (l.map (fun x => x / c)).getD s 0 = l.getD s 0 / c := by
    rintro l c ⟨g, rfl⟩
    rw [List.map_map, getD_map_range _ hs, getD_map_range _ hs]
    rfl
  rw [hgd (nextColRaw m b (forwardAux m b t).1 (t + 1)) _
      ⟨fun i => ((List.range m.K).map
        (fun j => (forwardAux m b t).1.getD j 0 * m.trans j i)).sum * b (t + 1) i, rfl⟩,
    nextColRaw_getD m b hs, hsc]

/-! ### C4: the forward pass -/

/-- C4: for every model and output-probability cache, the forward pass fills
column 0 with `f(0,s) = init(s) * b(0,s)` and then normalizes it — dividing by
the column sum, recorded as scale factor `c_0` — and for every `t ≥ 1` fills
column `t` with `f(t,s) = b(t,s) * Σ_j f(t-1,j) * trans(j,s)` and then
normalizes it; the recurrences show each column is computed strictly from the
(already normalized) previous column. -/
theorem forward_pass_columns (m : HmmModel) (b : ℕ → ℕ → ℚ) (t s : ℕ) (hs : s < m.K) :
    scaleF m b 0 = ∑ j in Finset.range m.K, m.init j * b 0 j ∧
    fwdP m b 0 s = m.init s * b 0 s / scaleF m b 0 ∧
    (1 ≤ t → scaleF m b t =
      ∑ j in Finset.range m.K, b t j * ∑ k in Finset.range m.K, fwdP m b (t - 1) k * m.trans k j) ∧
    (1 ≤ t → fwdP m b t s =
      b t s * (∑ k in Finset.range m.K, fwdP m b (t - 1) k * m.trans k s) / scaleF m b t) := by
  refine ⟨scaleF_zero_eq m b, fwdP_zero_eq m b hs, ?_, ?_⟩
  · intro ht
    obtain ⟨t', rfl⟩ : ∃ t', t = t' + 1 := ⟨t - 1, by omega⟩
    rw [scaleF_succ_eq, Nat.add_sub_cancel]
    exact Finset.sum_congr rfl (fun j _ => mul_comm _ _)
  · intro ht
    obtain ⟨t', rfl⟩ : ∃ t', t = t' + 1 := ⟨t - 1, by omega⟩
    rw [fwdP_succ_eq m b t' hs, Nat.add_sub_cancel, mul_comm (b (t' + 1) s)]

/-! ### C5: the backward pass -/

/-- C5: for every non-empty sequence length `T`, the backward pass sets
`g(T-1, i) = 1` with no normalization of its own, and for every `t < T-1` sets
`g(t,i) = c_{t+1} * Σ_j g(t+1,j) * trans(i,j) * b(t+1,j)`, where `c_{t+1}` is
the forward trellis's scale factor for time `t+1`; the recurrence shows each
column is computed strictly from the next column and the forward scale
factors. -/
theorem backward_pass_columns (m : HmmModel) (b : ℕ → ℕ → ℚ) (T t i : ℕ)
    (hi : i < m.K) :
    bwdP m b T (T - 1) i = 1 ∧
    (t < T - 1 → bwdP m b T t i =
      scaleF m b (t + 1) *
        ∑ j in Finset.range m.K, bwdP m b T (t + 1) j * m.trans i j * b (t + 1) j) := by
  constructor
  · show (backAux m b (scaleF m b) T (T - 1 - (T - 1))).getD i 0 = 1
    rw [show T - 1 - (T - 1) = 0 from by omega]
    exact getD_replicate_one hi
  · intro ht
    show (backAux m b (scaleF m b) T (T - 1 - t)).getD i 0 = _
    rw [show T - 1 - t = (T - 2 - t) + 1 from by omega]
    simp only [backAux]
    rw [getD_map_range _ hi, show T - 1 - (T - 2 - t) = t + 1 from by omega,
      listSum_map_range]
    congr 1
    refine Finset.sum_congr rfl ?_
    intro j hj
    have : bwdP m b T (t + 1) j = (backAux m b (scaleF m b) T (T - 2 - t)).getD j 0 := by
      rw [bwdP, show T - 1 - (t + 1) = T - 2 - t from by omega]
    rw [this]

/-! ### C3: the concrete scenario -/

/-- C3: for the two-state model with symbols `{A, B}`, sequence `[A, B]`,
initial `[1/2, 1/2]`, uniform transitions and emissions `4/5 / 1/5` resp.
`1/5 / 4/5`: forward column 0 normalizes to `[4/5, 1/5]` with scale factor
`1/2`; column 1 normalizes to `[1/5, 4/5]` with scale factor `1/2`; the
accumulated log-likelihood value `Σ_t -log(c_t)` equals `2 * log 2`; backward
column 0 is `[1/4, 1/4]`; and the posteriors are `gamma(0,·) = [4/5, 1/5]`,
`gamma(1,·) = [1/5, 4/5]`. -/
theorem concrete_scenario_values :
    fwdP c3m c3b 0 0 = 4/5 ∧ fwdP c3m c3b 0 1 = 1/5 ∧ scaleF c3m c3b 0 = 1/2 ∧
    fwdP c3m c3b 1 0 = 1/5 ∧ fwdP c3m c3b 1 1 = 4/5 ∧ scaleF c3m c3b 1 = 1/2 ∧
    (∑ t in Finset.range 2, -Real.log ((scaleF c3m c3b t : ℚ) : ℝ)) = 2 * Real.log 2 ∧
    bwdP c3m c3b 2 0 0 = 1/4 ∧ bwdP c3m c3b 2 0 1 = 1/4 ∧
    gammaV c3m c3b 2 0 0 = 4/5 ∧ gammaV c3m c3b 2 0 1 = 1/5 ∧
    gammaV c3m c3b 2 1 0 = 1/5 ∧ gammaV c3m c3b 2 1 1 = 4/5 := by
  have e0 : scaleF c3m c3b 0 = 1/2 := by
    norm_num [scaleF, forwardAux, normalizeCol, col0, nextColRaw, outputProbs, c3m, c3b,
      c3seq, List.range_succ]
  have e1 : scaleF c3m c3b 1 = 1/2 := by
    norm_num [scaleF, forwardAux, normalizeCol, col0, nextColRaw, outputProbs, c3m, c3b,
      c3seq, List.range_succ]
  refine ⟨?_, ?_, e0, ?_, ?_, e1, ?_, ?_, ?_, ?_, ?_, ?_, ?_⟩ <;>
    first
      | (rw [Finset.sum_range_succ, Finset.sum_range_succ, Finset.sum_range_zero, e0, e1]
         rw [show (((1:ℚ)/2 : ℚ) : ℝ) = (2:ℝ)⁻¹ from by push_cast; norm_num, Real.log_inv]
         ring)
      | norm_num [fwdP, bwdP, gammaV, scaleF, forwardAux, backAux, normalizeCol, col0,
          nextColRaw, outputProbs, c3m, c3b, c3seq, List.range_succ]

/-! ### The scaled trellis reconstructs the path-sum probability -/

lemma unscaledF_eq_scaled (m : HmmModel) (b : ℕ → ℕ → ℚ) :
    ∀ t, (∀ u, u ≤ t → scaleF m b u ≠ 0) → ∀ s, s < m.K →
      unscaledF m b t s = fwdP m b t s * ∏ u in Finset.range (t + 1), scaleF m b u := by
  intro t
  induction t with
  | zero =>
    intro h s hs
    show m.init s * b 0 s = _
    rw [fwdP_zero_eq m b hs, Finset.prod_range_one,
      div_mul_cancel₀ _ (h 0 (le_refl 0))]
  | succ t ih =>
    intro h s hs
    have hprev : ∀ u, u ≤ t → scaleF m b u ≠ 0 := fun u hu => h u (by omega)
    show (∑ j in Finset.range m.K, unscaledF m b t j * m.trans j s) * b (t + 1) s = _
    have hrw : ∑ j in Finset.range m.K, unscaledF m b t j * m.trans j s =
        (∏ u in Finset.range (t + 1), scaleF m b u) *
          ∑ j in Finset.range m.K, fwdP m b t j * m.trans j s := by
      rw [Finset.mul_sum]
      refine Finset.sum_congr rfl ?_
      intro j hj
      rw [ih hprev j (Finset.mem_range.mp hj)]
      ring
    have hc : scaleF m b (t + 1) ≠ 0 := h (t + 1) (le_refl _)
    rw [hrw, fwdP_succ_eq m b t hs,
      Finset.prod_range_succ (fun u => scaleF m b u) (t + 1),
      mul_comm (∏ u in Finset.range (t + 1), scaleF m b u) (scaleF m b (t + 1)),
      ← mul_assoc, div_mul_cancel₀ _ hc]
    ring

lemma sum_unscaledF (m : HmmModel) (b : ℕ → ℕ → ℚ) :
    ∀ t, (∀ u, u < t → scaleF m b u ≠ 0) →
      ∑ s in Finset.range m.K, unscaledF m b t s =
        ∏ u in Finset.range (t + 1), scaleF m b u := by
  intro t
  induction t with
  | zero =>
    intro _
    rw [Finset.prod_range_one, scaleF_zero_eq]
    rfl
  | succ t _ =>
    intro h
    have hprev : ∀ u, u ≤ t → scaleF m b u ≠ 0 := fun u hu => h u (by omega)
    have hstep : ∑ s in Finset.range m.K, unscaledF m b (t + 1) s =
        (∏ u in Finset.range (t + 1), scaleF m b u) *
          ∑ s in Finset.range m.K,
            (∑ j in Finset.range m.K, fwdP m b t j * m.trans j s) * b (t + 1) s := by
      rw [Finset.mul_sum]
      refine Finset.sum_congr rfl ?_
      intro s hs
      show (∑ j in Finset.range m.K, unscaledF m b t j * m.trans j s) * b (t + 1) s = _
      have : ∑ j in Finset.range m.K, unscaledF m b t j * m.trans j s =
          (∏ u in Finset.range (t + 1), scaleF m b u) *
            ∑ j in Finset.range m.K, fwdP m b t j * m.trans j s := by
        rw [Finset.mul_sum]
        refine Finset.sum_congr rfl ?_
        intro j hj
        rw [unscaledF_eq_scaled m b t hprev j (Finset.mem_range.mp hj)]
        ring
      rw [this]
      ring
    rw [hstep, ← scaleF_succ_eq, Finset.prod_range_succ (fun u => scaleF m b u) (t + 1)]

lemma sum_map_flatMap {α : Type} (g : α → List (List ℕ)) (h : List ℕ → ℚ) :
    ∀ l : List α, ((l.flatMap g).map h).sum = (l.map (fun a => ((g a).map h).sum)).sum := by
  intro l
  induction l with
  | nil => rfl
  | cons a l ih =>
    rw [List.flatMap_cons, List.map_append, List.sum_append, List.map_cons, List.sum_cons, ih]

lemma getLastD_append_singleton : ∀ (l : List ℕ) (a d : ℕ), (l ++ [a]).getLastD d = a := by
  intro l
  induction l with
  | nil => intro a d; rfl
  | cons x l ih => intro a d; rw [List.cons_append, List.getLastD_cons, ih]

lemma pathsE_length (K : ℕ) : ∀ T p, p ∈ pathsE K T → p.length = T := by
  intro T
  induction T with
  | zero =>
    intro p hp
    simp only [pathsE, List.mem_singleton] at hp
    rw [hp]
    rfl
  | succ T ih =>
    intro p hp
    simp only [pathsE, List.mem_flatMap, List.mem_map] at hp
    obtain ⟨q, hq, s, _, rfl⟩ := hp
    rw [List.length_append, ih q hq]
    rfl

lemma pwTail_append (m : HmmModel) (b : ℕ → ℕ → ℚ) :
    ∀ (rest : List ℕ) (t prev s : ℕ),
      pwTail m b t prev (rest ++ [s]) =
        pwTail m b t prev rest * m.trans (rest.getLastD prev) s * b (t + rest.length) s := by
  intro rest
  induction rest with
  | nil =>
    intro t prev s
    show m.trans prev s * b t s * pwTail m b (t + 1) s [] = _
    show m.trans prev s * b t s * 1 = 1 * m.trans prev s * b (t + 0) s
    rw [Nat.add_zero, one_mul, mul_one]
  | cons a rest ih =>
    intro t prev s
    show m.trans prev a * b t a * pwTail m b (t + 1) a (rest ++ [s]) = _
    rw [ih (t + 1) a s, List.getLastD_cons, List.length_cons,
      show t + 1 + rest.length = t + (rest.length + 1) from by omega]
    show _ = m.trans prev a * b t a * pwTail m b (t + 1) a rest *
      m.trans (rest.getLastD a) s * b (t + (rest.length + 1)) s
    ring

lemma pathWeight_append (m : HmmModel) (b : ℕ → ℕ → ℚ) (p : List ℕ) (hp : p ≠ [])
    (s : ℕ) :
    pathWeight m b (p ++ [s]) =
      pathWeight m b p * m.trans (p.getLastD 0) s * b p.length s := by
  cases p with
  | nil => exact absurd rfl hp
  | cons a rest =>
    show m.init a * b 0 a * pwTail m b 1 a (rest ++ [s]) = _
    rw [pwTail_append, List.getLastD_cons, List.length_cons,
      show 1 + rest.length = rest.length + 1 from by omega]
    show _ = m.init a * b 0 a * pwTail m b 1 a rest *
      m.trans (rest.getLastD a) s * b (rest.length + 1) s
    ring

lemma brute_gen (m : HmmModel) (b : ℕ → ℕ → ℚ) :
    ∀ (t : ℕ) (f : ℕ → ℚ),
      ((pathsE m.K (t + 1)).map (fun p => pathWeight m b p * f (p.getLastD 0))).sum =
        ∑ s in Finset.range m.K, unscaledF m b t s * f s := by
  intro t
  induction t with
  | zero =>
    intro f
    have hp1 : pathsE m.K 1 = (List.range m.K).map (fun s => [s]) := by
      show ([([] : List ℕ)].flatMap (fun p => (List.range m.K).map (fun s => p ++ [s]))) = _
      simp
    rw [hp1, List.map_map, listSum_map_range]
    refine Finset.sum_congr rfl ?_
    intro s _
    show pathWeight m b [s] * f (([s] : List ℕ).getLastD 0) = unscaledF m b 0 s * f s
    show m.init s * b 0 s * pwTail m b 1 s [] * f s = unscaledF m b 0 s * f s
    show m.init s * b 0 s * 1 * f s = m.init s * b 0 s * f s
    ring
  | succ t ih =>
    intro f
    have hpaths : pathsE m.K (t + 1 + 1) =
        (pathsE m.K (t + 1)).flatMap (fun p => (List.range m.K).map (fun s => p ++ [s])) := rfl
    rw [hpaths, sum_map_flatMap]
    have hinner : ∀ p ∈ pathsE m.K (t + 1),
        (((List.range m.K).map (fun s => p ++ [s])).map
          (fun q => pathWeight m b q * f (q.getLastD 0))).sum =
        pathWeight m b p *
          ∑ s in Finset.range m.K, m.trans (p.getLastD 0) s * b (t + 1) s * f s := by
      intro p hp
      have hlen : p.length = t + 1 := pathsE_length m.K (t + 1) p hp
      have hne : p ≠ [] := by
        intro hnil
        rw [hnil] at hlen
        simp at hlen
      rw [List.map_map, listSum_map_range, Finset.mul_sum]
      refine Finset.sum_congr rfl ?_
      intro s _
      show pathWeight m b (p ++ [s]) * f ((p ++ [s]).getLastD 0) = _
      rw [pathWeight_append m b p hne s, getLastD_append_singleton, hlen]
      ring
    rw [List.map_congr_left hinner, ih (fun prev =>
      ∑ s in Finset.range m.K, m.trans prev s * b (t + 1) s * f s)]
    calc ∑ j in Finset.range m.K, unscaledF m b t j *
            ∑ s in Finset.range m.K, m.trans j s * b (t + 1) s * f s
        = ∑ j in Finset.range m.K, ∑ s in Finset.range m.K,
            unscaledF m b t j * (m.trans j s * b (t + 1) s * f s) := by
          refine Finset.sum_congr rfl ?_
          intro j _
          rw [Finset.mul_sum]
      _ = ∑ s in Finset.range m.K, ∑ j in Finset.range m.K,
            unscaledF m b t j * (m.trans j s * b (t + 1) s * f s) := Finset.sum_comm
      _ = ∑ s in Finset.range m.K, unscaledF m b (t + 1) s * f s := by
          refine Finset.sum_congr rfl ?_
          intro s _
          show _ = (∑ j in Finset.range m.K, unscaledF m b t j * m.trans j s) *
            b (t + 1) s * f s
          rw [Finset.sum_mul, Finset.sum_mul]
          refine Finset.sum_congr rfl ?_
          intro j _
          ring

lemma bruteForceLik_eq_sum_unscaled (m : HmmModel) (b : ℕ → ℕ → ℚ) (T : ℕ)
    (hT : 1 ≤ T) :
    bruteForceLik m b T = ∑ s in Finset.range m.K, unscaledF m b (T - 1) s := by
  obtain ⟨t, rfl⟩ : ∃ t, T = t + 1 := ⟨T - 1, by omega⟩
  have h := brute_gen m b t (fun _ => 1)
  simp only [mul_one] at h
  rw [bruteForceLik, Nat.add_sub_cancel, ← h]

lemma prod_scaleF_eq_brute (m : HmmModel) (b : ℕ → ℕ → ℚ) (T : ℕ) (hT : 1 ≤ T)
    (h0 : ∀ u, u < T → scaleF m b u ≠ 0) :
    ∏ u in Finset.range T, scaleF m b u = bruteForceLik m b T := by
  obtain ⟨t, rfl⟩ : ∃ t, T = t + 1 := ⟨T - 1, by omega⟩
  rw [bruteForceLik_eq_sum_unscaled m b (t + 1) (by omega), Nat.add_sub_cancel,
    sum_unscaledF m b t (fun u hu => h0 u (by omega))]

/-! ### C1: the scaled trellis versus the brute-force likelihood -/

/-- C1 (counterexample): in the concrete scenario, the accumulated value
`Σ_t -log(c_t)` does not equal the brute-force log probability
`log P(sequence)`: the former is `2 log 2`, the latter `log (1/4) = -2 log 2`. -/
theorem scaled_loglik_ne_brute_log :
    (∑ t in Finset.range 2, -Real.log ((scaleF c3m c3b t : ℚ) : ℝ)) ≠
      Real.log ((bruteForceLik c3m c3b 2 : ℚ) : ℝ) := by
  have e0 : scaleF c3m c3b 0 = 1/2 := by
    norm_num [scaleF, forwardAux, normalizeCol, col0, nextColRaw, outputProbs, c3m, c3b,
      c3seq, List.range_succ]
  have e1 : scaleF c3m c3b 1 = 1/2 := by
    norm_num [scaleF, forwardAux, normalizeCol, col0, nextColRaw, outputProbs, c3m, c3b,
      c3seq, List.range_succ]
  have eb : bruteForceLik c3m c3b 2 = 1/4 := by
    norm_num [bruteForceLik, pathsE, pathWeight, pwTail, outputProbs, c3m, c3b, c3seq,
      List.range_succ]
  rw [Finset.sum_range_succ, Finset.sum_range_succ, Finset.sum_range_zero, e0, e1, eb,
    show (((1:ℚ)/2 : ℚ) : ℝ) = (2:ℝ)⁻¹ from by push_cast; norm_num, Real.log_inv,
    show (((1:ℚ)/4 : ℚ) : ℝ) = ((2:ℝ)^2)⁻¹ from by push_cast; norm_num, Real.log_inv,
    Real.log_pow]
  intro hEq
  have hl : 0 < Real.log 2 := Real.log_pos (by norm_num)
  push_cast at hEq
  nlinarith [hl, hEq]

/-- C1 (amended): for every model, output-probability cache and sequence
length `T ≥ 1` whose forward scale factors are positive, the per-sequence
value accumulated from the scaled trellis, `Σ_t -log(c_t)`, equals the
*negative* of the brute-force log probability computed from the joint
path-sum formula.  (As stated, the claim asserts equality with
`log P(sequence)` itself; the accumulated value is its negation, see the
counterexample.) -/
theorem scaled_loglik_eq_neg_brute_log (m : HmmModel) (b : ℕ → ℕ → ℚ) (T : ℕ)
    (hT : 1 ≤ T) (hpos : ∀ u, u < T → 0 < scaleF m b u) :
    (∑ t in Finset.range T, -Real.log ((scaleF m b t : ℚ) : ℝ)) =
      -Real.log ((bruteForceLik m b T : ℚ) : ℝ) := by
  have hprod := prod_scaleF_eq_brute m b T hT (fun u hu => ne_of_gt (hpos u hu))
  rw [← hprod]
  push_cast
  rw [Real.log_prod _ _ (fun i hi => by
    have := hpos i (Finset.mem_range.mp hi)
    positivity)]
  rw [← Finset.sum_neg_distrib]

/-- Witness for `scaled_loglik_eq_neg_brute_log` at the concrete scenario. -/
theorem scaled_loglik_eq_neg_brute_log_witness :
    (1 ≤ 2 ∧ ∀ u, u < 2 → 0 < scaleF c3m c3b u) ∧
      (∑ t in Finset.range 2, -Real.log ((scaleF c3m c3b t : ℚ) : ℝ)) =
        -Real.log ((bruteForceLik c3m c3b 2 : ℚ) : ℝ) := by
  have hpos : ∀ u, u < 2 → 0 < scaleF c3m c3b u := by
    intro u hu
    interval_cases u <;>
      norm_num [scaleF, forwardAux, normalizeCol, col0, nextColRaw, outputProbs, c3m, c3b,
        c3seq, List.range_succ]
  exact ⟨⟨by norm_num, hpos⟩, scaled_loglik_eq_neg_brute_log c3m c3b 2 (by norm_num) hpos⟩

/-! ### C2: what the transition accumulator receives -/

lemma addTrans_transC_eval (c : CountsQ) (i j : ℕ) (x : ℚ) (a bb : ℕ) :
    (addTrans c i j x).transC a bb = c.transC a bb + if a = i ∧ bb = j then x else 0 := by
  show (if a = i ∧ bb = j then c.transC a bb + x else c.transC a bb) = _
  split
  · rfl
  · rw [add_zero]

lemma foldl_transC_const {α : Type} (g : CountsQ → α → CountsQ)
    (hg : ∀ c a, (g c a).transC = c.transC) :
    ∀ (l : List α) (c : CountsQ), (l.foldl g c).transC = c.transC := by
  intro l
  induction l with
  | nil => intro c; rfl
  | cons a l ih => intro c; rw [List.foldl_cons, ih, hg]

lemma foldl_addTrans_transC (i j : ℕ) (f : ℕ → ℚ) :
    ∀ (l : List ℕ) (c : CountsQ) (a bb : ℕ),
      ((l.foldl (fun c t => addTrans c i j (f t)) c).transC a bb) =
        c.transC a bb + if a = i ∧ bb = j then (l.map f).sum else 0 := by
  intro l
  induction l with
  | nil =>
    intro c a bb
    rw [List.foldl_nil, List.map_nil, List.sum_nil]
    split <;> rw [add_zero]
  | cons t l ih =>
    intro c a bb
    rw [List.foldl_cons, ih, addTrans_transC_eval, List.map_cons, List.sum_cons]
    split
    · ring
    · ring

/-- Transition-count effect of the inner `j`-loop of `seqBody`. -/
lemma jloop_transC (m : HmmModel) (b : ℕ → ℕ → ℚ) (T i : ℕ) :
    ∀ (n : ℕ) (c : CountsQ) (a bb : ℕ),
      (((List.range n).foldl
        (fun c j => (List.range (T - 1)).foldl
          (fun c t => addTrans c i j (xiCode m b T t i j)) c) c).transC a bb) =
        c.transC a bb + if a = i ∧ bb < n then
          ((List.range (T - 1)).map (fun t => xiCode m b T t a bb)).sum else 0 := by
  intro n
  induction n with
  | zero =>
    intro c a bb
    rw [List.range_zero, List.foldl_nil]
    split
    · omega
    · rw [add_zero]
  | succ n ih =>
    intro c a bb
    rw [List.range_succ, List.foldl_append, List.foldl_cons, List.foldl_nil,
      foldl_addTrans_transC, ih]
    by_cases ha : a = i
    · subst ha
      by_cases hb : bb = n
      · subst hb
        rw [if_neg (fun h => by omega), if_pos ⟨rfl, rfl⟩, if_pos ⟨rfl, by omega⟩]
        ring
      · by_cases hb2 : bb < n
        · rw [if_pos ⟨rfl, hb2⟩, if_neg (fun h => hb h.2), if_pos ⟨rfl, by omega⟩]
          ring
        · rw [if_neg (fun h => hb2 h.2), if_neg (fun h => hb h.2),
            if_neg (fun h => by omega)]
          ring
    · rw [if_neg (fun h => ha h.1), if_neg (fun h => ha h.1), if_neg (fun h => ha h.1)]
      ring

/-- Transition-count effect of one whole iteration of the outer state loop. -/
lemma seqBody_transC (m : HmmModel) (seq : List ℕ) (c : CountsQ) (i a bb : ℕ) :
    (seqBody m seq c i).transC a bb =
      c.transC a bb + if a = i ∧ bb < m.K then
        ((List.range (seq.length - 1)).map
          (fun t => xiCode m (outputProbs m seq) seq.length t a bb)).sum else 0 := by
  show (((List.range seq.length).foldl
      (fun c t => addObs c (seq.getD t 0) i (gammaV m (outputProbs m seq) seq.length t i)) _)).transC a bb = _
  rw [foldl_transC_const
      (fun c t => addObs c (seq.getD t 0) i (gammaV m (outputProbs m seq) seq.length t i))
      (fun c t => rfl), jloop_transC]
  show (addInit c i _).transC a bb + _ = _
  rfl

/-- Transition-count effect of `accumSeq`'s outer loop over the first `n`
states. -/
lemma accumSeq_loop_transC (m : HmmModel) (seq : List ℕ) :
    ∀ (n : ℕ) (c : CountsQ) (a bb : ℕ),
      (((List.range n).foldl (seqBody m seq) c).transC a bb) =
        c.transC a bb + if a < n ∧ bb < m.K then
          ((List.range (seq.length - 1)).map
            (fun t => xiCode m (outputProbs m seq) seq.length t a bb)).sum else 0 := by
  intro n
  induction n with
  | zero =>
    intro c a bb
    rw [List.range_zero, List.foldl_nil]
    split
    · omega
    · rw [add_zero]
  | succ n ih =>
    intro c a bb
    rw [List.range_succ, List.foldl_append, List.foldl_cons, List.foldl_nil,
      seqBody_transC, ih]
    by_cases hb : bb < m.K
    · by_cases ha : a = n
      · subst ha
        rw [if_neg (fun h => by omega), if_pos ⟨rfl, hb⟩, if_pos ⟨by omega, hb⟩]
        ring
      · by_cases ha2 : a < n
        · rw [if_pos ⟨ha2, hb⟩, if_neg (fun h => ha h.1), if_pos ⟨by omega, hb⟩]
          ring
        · rw [if_neg (fun h => ha2 h.1), if_neg (fun h => ha h.1),
            if_neg (fun h => by omega)]
          ring
    · rw [if_neg (fun h => hb h.2), if_neg (fun h => hb h.2), if_neg (fun h => hb h.2)]
      ring

/-- C2 (amended): for every model, sequence and starting counts, and every
state pair `(i,j)` in range, the `(i,j)` transition-count accumulator receives
exactly the quantities
`xi(t,i,j) = gamma(t,i) * trans(i,j) * b(t+1,j) * c_{t+1} * g(t+1,j) / g(t,i)`
for `t ∈ [0, T-2]` — the claim's formula with the additional factor
`g(t+1,j)`, the backward value at the destination state and next time step,
which the code multiplies in (line 273) but the claim omits. -/
theorem trans_counts_accumulate_xi (m : HmmModel) (seq : List ℕ) (c : CountsQ)
    {i j : ℕ} (hi : i < m.K) (hj : j < m.K) :
    (accumSeq m seq c).transC i j = c.transC i j +
      ∑ t in Finset.range (seq.length - 1),
        gammaV m (outputProbs m seq) seq.length t i * m.trans i j *
          outputProbs m seq (t + 1) j * scaleF m (outputProbs m seq) (t + 1) *
          bwdP m (outputProbs m seq) seq.length (t + 1) j /
          bwdP m (outputProbs m seq) seq.length t i := by
  show (((List.range m.K).foldl (seqBody m seq) c)).transC i j = _
  rw [accumSeq_loop_transC, if_pos ⟨hi, hj⟩, listSum_map_range]
  rfl

/-- The sequence `[A, B, A]` (length 3) used to separate the code's `xi`
from the claim's formula. -/
def c2seq : List ℕ := [0, 1, 0]

/-- Its cached output probabilities under the concrete model. -/
def c2b : ℕ → ℕ → ℚ := outputProbs c3m c2seq

/-- C2 (counterexample): on the concrete model with sequence `[A, B, A]`, the
total received by the `(0,0)` transition accumulator (`8/25`) differs from the
sum of the claim's formula
`gamma(t,i) * trans(i,j) * b(t+1,j) * c_{t+1} / g(t,i)` over `t ∈ [0, T-2]`
(`4/5`): the claim's formula is missing the factor `g(t+1,j)`. -/
theorem xi_accum_ne_spec_formula :
    (accumSeq c3m c2seq zeroCountsQ).transC 0 0 ≠
      ∑ t in Finset.range 2,
        gammaV c3m c2b 3 t 0 * c3m.trans 0 0 * c2b (t + 1) 0 *
          scaleF c3m c2b (t + 1) / bwdP c3m c2b 3 t 0 := by
  norm_num [accumSeq, seqBody, addInit, addTrans, addObs, zeroCountsQ, gammaV, xiCode,
    bwdP, backAux, fwdP, scaleF, forwardAux, normalizeCol, col0, nextColRaw, outputProbs,
    c3m, c2b, c2seq, List.range_succ, Finset.sum_range_succ]

/-- Witness for `trans_counts_accumulate_xi` at the concrete scenario. -/
theorem trans_counts_accumulate_xi_witness :
    ((0 : ℕ) < c3m.K ∧ (1 : ℕ) < c3m.K) ∧
      (accumSeq c3m c2seq zeroCountsQ).transC 0 1 = zeroCountsQ.transC 0 1 +
        ∑ t in Finset.range (c2seq.length - 1),
          gammaV c3m (outputProbs c3m c2seq) c2seq.length t 0 * c3m.trans 0 1 *
            outputProbs c3m c2seq (t + 1) 1 * scaleF c3m (outputProbs c3m c2seq) (t + 1) *
            bwdP c3m (outputProbs c3m c2seq) c2seq.length (t + 1) 1 /
            bwdP c3m (outputProbs c3m c2seq) c2seq.length t 0 :=
  ⟨⟨by norm_num [c3m], by norm_num [c3m]⟩,
    trans_counts_accumulate_xi c3m c2seq zeroCountsQ (by norm_num [c3m]) (by norm_num [c3m])⟩

/-! ### The fit loop: stopping behavior -/

/-- Iteration `j ≥ 2` neither diverged nor converged: the log likelihood did
not decrease, and the improvement was at least `delta`. -/
def contAt {σ : Type} (step : σ → σ × ℚ) (delta : ℚ) (s0 : σ) (j : ℕ) : Prop :=
  llSeq step s0 (j - 1) ≤ llSeq step s0 j ∧ delta ≤ llSeq step s0 j - llSeq step s0 (j - 1)

lemma iterEM_pred {σ : Type} (step : σ → σ × ℚ) (s0 : σ) {i : ℕ} (hi : 1 ≤ i) :
    (step (iterEM step s0 (i - 1))).1 = iterEM step s0 i := by
  obtain ⟨i', rfl⟩ : ∃ i', i = i' + 1 := ⟨i - 1, by omega⟩
  rw [Nat.add_sub_cancel]
  rfl

lemma fitAux_zero {σ : Type} (step : σ → σ × ℚ) (delta : ℚ) (i : ℕ) (s : σ)
    (old : Option ℚ) : fitAux step delta i 0 s old = (.exhausted old, s) := rfl

lemma fitAux_succ_none {σ : Type} (step : σ → σ × ℚ) (delta : ℚ) (i fuel : ℕ) (s : σ) :
    fitAux step delta i (fuel + 1) s none =
      fitAux step delta (i + 1) fuel (step s).1 (some (step s).2) := rfl

lemma fitAux_succ_some {σ : Type} (step : σ → σ × ℚ) (delta : ℚ) (i fuel : ℕ) (s : σ)
    (o : ℚ) :
    fitAux step delta i (fuel + 1) s (some o) =
      if (step s).2 < o then (.diverged i, (step s).1)
      else if (step s).2 - o < delta then (.converged (step s).2, (step s).1)
      else fitAux step delta (i + 1) fuel (step s).1 (some (step s).2) := rfl

/-- Complete characterization of a run of `fitAux` started at iteration
`i ≥ 2` in the coherent state (parameters after `i-1` iterations, `old_ll`
from iteration `i-1`): it diverges at the first decrease, converges at the
first sub-`delta` improvement, or exhausts the fuel, in each case having
"continued" through all earlier iterations. -/
lemma fitAux_spec {σ : Type} (step : σ → σ × ℚ) (delta : ℚ) (s0 : σ) :
    ∀ (fuel i : ℕ), 2 ≤ i →
      (∃ k, i ≤ k ∧ k < i + fuel ∧
        fitAux step delta i fuel (iterEM step s0 (i - 1)) (some (llSeq step s0 (i - 1))) =
          (.diverged k, iterEM step s0 k) ∧
        llSeq step s0 k < llSeq step s0 (k - 1) ∧
        ∀ j, i ≤ j → j < k → contAt step delta s0 j) ∨
      (∃ k, i ≤ k ∧ k < i + fuel ∧
        fitAux step delta i fuel (iterEM step s0 (i - 1)) (some (llSeq step s0 (i - 1))) =
          (.converged (llSeq step s0 k), iterEM step s0 k) ∧
        llSeq step s0 (k - 1) ≤ llSeq step s0 k ∧
        llSeq step s0 k - llSeq step s0 (k - 1) < delta ∧
        ∀ j, i ≤ j → j < k → contAt step delta s0 j) ∨
      (fitAux step delta i fuel (iterEM step s0 (i - 1)) (some (llSeq step s0 (i - 1))) =
          (.exhausted (some (llSeq step s0 (i + fuel - 1))), iterEM step s0 (i + fuel - 1)) ∧
        ∀ j, i ≤ j → j < i + fuel → contAt step delta s0 j) := by
  intro fuel
  induction fuel with
  | zero =>
    intro i hi
    right; right
    constructor
    · rw [fitAux_zero, show i + 0 - 1 = i - 1 from by omega]
    · intro j h1 h2
      omega
  | succ fuel ih =>
    intro i hi
    have hp1 : (step (iterEM step s0 (i - 1))).1 = iterEM step s0 i :=
      iterEM_pred step s0 (by omega)
    have hp2 : (step (iterEM step s0 (i - 1))).2 = llSeq step s0 i := rfl
    by_cases hdiv : llSeq step s0 i < llSeq step s0 (i - 1)
    · left
      refine ⟨i, le_refl i, by omega, ?_, hdiv, fun j h1 h2 => by omega⟩
      rw [fitAux_succ_some]
      simp only [hp2, if_pos hdiv, hp1]
    · by_cases hconv : llSeq step s0 i - llSeq step s0 (i - 1) < delta
      · right; left
        refine ⟨i, le_refl i, by omega, ?_, not_lt.mp hdiv, hconv, fun j h1 h2 => by omega⟩
        rw [fitAux_succ_some]
        simp only [hp2, if_neg hdiv, if_pos hconv, hp1]
      · have hcont : contAt step delta s0 i := ⟨not_lt.mp hdiv, not_lt.mp hconv⟩
        have hrec : fitAux step delta i (fuel + 1) (iterEM step s0 (i - 1))
            (some (llSeq step s0 (i - 1))) =
            fitAux step delta (i + 1) fuel (iterEM step s0 ((i + 1) - 1))
              (some (llSeq step s0 ((i + 1) - 1))) := by
          rw [fitAux_succ_some]
          simp only [hp2, if_neg hdiv, if_neg hconv, hp1, Nat.add_sub_cancel]
        rcases ih (i + 1) (by omega) with
          ⟨k, hk1, hk2, heq, hdec, hall⟩ | ⟨k, hk1, hk2, heq, hle, hlt, hall⟩ | ⟨heq, hall⟩
        · left
          refine ⟨k, by omega, by omega, by rw [hrec]; exact heq, hdec, ?_⟩
          intro j h1 h2
          rcases Nat.eq_or_lt_of_le h1 with h | h
          · rw [← h]; exact hcont
          · exact hall j (by omega) h2
        · right; left
          refine ⟨k, by omega, by omega, by rw [hrec]; exact heq, hle, hlt, ?_⟩
          intro j h1 h2
          rcases Nat.eq_or_lt_of_le h1 with h | h
          · rw [← h]; exact hcont
          · exact hall j (by omega) h2
        · right; right
          constructor
          · rw [hrec, heq, show i + 1 + fuel - 1 = i + (fuel + 1) - 1 from by omega]
          · intro j h1 h2
            rcases Nat.eq_or_lt_of_le h1 with h | h
            · rw [← h]; exact hcont
            · exact hall j (by omega) (by omega)

/-- Characterization of `fitRun` for `maxIters ≥ 1`: iteration 1 always runs
and never stops (its `old_ll` is `lowest()`); from iteration 2 on the run
diverges at the first decrease, converges at the first sub-`delta`
improvement, or runs all `maxIters` iterations and returns the last log
likelihood. -/
lemma fitRun_spec {σ : Type} (step : σ → σ × ℚ) (delta : ℚ) (s0 : σ) (n : ℕ)
    (hn : 1 ≤ n) :
    (∃ k, 2 ≤ k ∧ k ≤ n ∧
      fitRun step delta n s0 = (.diverged k, iterEM step s0 k) ∧
      llSeq step s0 k < llSeq step s0 (k - 1) ∧
      ∀ j, 2 ≤ j → j < k → contAt step delta s0 j) ∨
    (∃ k, 2 ≤ k ∧ k ≤ n ∧
      fitRun step delta n s0 = (.converged (llSeq step s0 k), iterEM step s0 k) ∧
      llSeq step s0 (k - 1) ≤ llSeq step s0 k ∧
      llSeq step s0 k - llSeq step s0 (k - 1) < delta ∧
      ∀ j, 2 ≤ j → j < k → contAt step delta s0 j) ∨
    (fitRun step delta n s0 = (.exhausted (some (llSeq step s0 n)), iterEM step s0 n) ∧
      ∀ j, 2 ≤ j → j ≤ n → contAt step delta s0 j) := by
  obtain ⟨f, rfl⟩ : ∃ f, n = f + 1 := ⟨n - 1, by omega⟩
  have hstart : fitRun step delta (f + 1) s0 =
      fitAux step delta 2 f (iterEM step s0 1) (some (llSeq step s0 1)) := rfl
  have h1 : iterEM step s0 1 = iterEM step s0 (2 - 1) := rfl
  have h2 : llSeq step s0 1 = llSeq step s0 (2 - 1) := rfl
  rw [hstart, h1, h2]
  rcases fitAux_spec step delta s0 f 2 (le_refl 2) with
    ⟨k, hk1, hk2, heq, hdec, hall⟩ | ⟨k, hk1, hk2, heq, hle, hlt, hall⟩ | ⟨heq, hall⟩
  · exact Or.inl ⟨k, hk1, by omega, heq, hdec, hall⟩
  · exact Or.inr (Or.inl ⟨k, hk1, by omega, heq, hle, hlt, hall⟩)
  · refine Or.inr (Or.inr ⟨?_, ?_⟩)
    · rw [heq, show 2 + f - 1 = f + 1 from by omega]
    · intro j hj1 hj2
      exact hall j hj1 (by omega)

/-! ### C6, C7, C10: the fit loop contract -/

/-- C6: `fit` throws the divergence error at iteration `i` exactly when the
log likelihood computed by an executed iteration `i` is strictly below that of
iteration `i-1` — every earlier iteration from 2 on having neither decreased
(which would have thrown) nor improved by less than `delta` (which would have
returned "Converged"); conversely the error fires only on such a decrease. -/
theorem fit_diverged_iff_decrease {σ : Type} (step : σ → σ × ℚ) (delta : ℚ) (n : ℕ)
    (s0 : σ) (i : ℕ) :
    (fitRun step delta n s0).1 = .diverged i ↔
      (2 ≤ i ∧ i ≤ n ∧ llSeq step s0 i < llSeq step s0 (i - 1) ∧
        ∀ j, 2 ≤ j → j < i →
          llSeq step s0 (j - 1) ≤ llSeq step s0 j ∧
            delta ≤ llSeq step s0 j - llSeq step s0 (j - 1)) := by
  rcases Nat.eq_zero_or_pos n with rfl | hn
  · constructor
    · intro h
      exact absurd h (by rw [show fitRun step delta 0 s0 = (.exhausted none, s0) from rfl]; simp)
    · intro h
      omega
  · rcases fitRun_spec step delta s0 n hn with
      ⟨k, hk1, hk2, heq, hdec, hall⟩ | ⟨k, hk1, hk2, heq, hle, hlt, hall⟩ | ⟨heq, hall⟩
    · constructor
      · intro h
        rw [heq] at h
        have hki : k = i := by simpa using h
        subst hki
        exact ⟨hk1, hk2, hdec, fun j hj1 hj2 => hall j hj1 hj2⟩
      · rintro ⟨h2i, hin, hdec', hall'⟩
        rcases lt_trichotomy i k with h | h | h
        · exact absurd (hall i h2i h).1 (not_le.mpr hdec')
        · subst h
          rw [heq]
        · exact absurd (hall' k hk1 h).1 (not_le.mpr hdec)
    · constructor
      · intro h
        rw [heq] at h
        exact absurd h (by simp)
      · rintro ⟨h2i, hin, hdec', hall'⟩
        rcases lt_trichotomy i k with h | h | h
        · exact absurd (hall i h2i h).1 (not_le.mpr hdec')
        · subst h
          exact absurd hle (not_le.mpr hdec')
        · exact absurd (hall' k hk1 h).2 (not_le.mpr hlt)
    · constructor
      · intro h
        rw [heq] at h
        exact absurd h (by simp)
      · rintro ⟨h2i, hin, hdec', _⟩
        exact absurd (hall i h2i hin).1 (not_le.mpr hdec')

/-- C7: `fit` terminates for every step function, `delta` and iteration
budget, and its outcome is one of: convergence at an iteration `i ≤ maxIters`
whose absolute improvement over iteration `i-1` fell below `delta`, returning
that iteration's log likelihood; budget exhaustion after exactly `maxIters`
iterations, returning the last computed log likelihood (`lowest()` when
`maxIters = 0`); or the thrown divergence error.  (Termination itself is
inherent: `fitRun` is a total function.) -/
theorem fit_terminates_trichotomy {σ : Type} (step : σ → σ × ℚ) (delta : ℚ) (n : ℕ)
    (s0 : σ) :
    (∃ i, 2 ≤ i ∧ i ≤ n ∧
      (fitRun step delta n s0).1 = .converged (llSeq step s0 i) ∧
      |llSeq step s0 i - llSeq step s0 (i - 1)| < delta) ∨
    ((fitRun step delta n s0).1 =
      .exhausted (if n = 0 then none else some (llSeq step s0 n))) ∨
    (∃ i, (fitRun step delta n s0).1 = .diverged i) := by
  rcases Nat.eq_zero_or_pos n with rfl | hn
  · right; left
    rw [if_pos rfl]
    rfl
  · rcases fitRun_spec step delta s0 n hn with
      ⟨k, _, _, heq, _, _⟩ | ⟨k, hk1, hk2, heq, hle, hlt, _⟩ | ⟨heq, _⟩
    · right; right
      exact ⟨k, by rw [heq]⟩
    · left
      refine ⟨k, hk1, hk2, by rw [heq], ?_⟩
      rw [abs_of_nonneg (sub_nonneg.mpr hle)]
      exact hlt
    · right; left
      rw [heq, if_neg (by omega)]

/-- C10: when `fit` throws the divergence error at iteration `i`, the model
state returned alongside is exactly the parameter state after `i` complete EM
iterations: `expectation_maximization` has already replaced the parameters
wholesale before `fit` compares log likelihoods, so the pre-iteration
parameters are not restored and every subsequent accessor observes the
post-iteration-`i` parameters. -/
theorem diverged_state_post_iteration {σ : Type} (step : σ → σ × ℚ) (delta : ℚ)
    (n : ℕ) (s0 : σ) (i : ℕ)
    (h : (fitRun step delta n s0).1 = .diverged i) :
    (fitRun step delta n s0).2 = iterEM step s0 i := by
  rcases Nat.eq_zero_or_pos n with rfl | hn
  · exact absurd h (by rw [show fitRun step delta 0 s0 = (.exhausted none, s0) from rfl]; simp)
  · rcases fitRun_spec step delta s0 n hn with
      ⟨k, _, _, heq, _, _⟩ | ⟨k, _, _, heq, _, _, _⟩ | ⟨heq, _⟩
    · rw [heq] at h ⊢
      have hki : k = i := by simpa using h
      subst hki
      rfl
    · rw [heq] at h
      exact absurd h (by simp)
    · rw [heq] at h
      exact absurd h (by simp)

/-- A two-iteration step function whose log likelihood drops from 5 to 3,
used to witness the divergence theorems. -/
def csStep : ℕ → ℕ × ℚ :=
  fun s => (s + 1, if s = 0 then 5 else 3)

/-- Witness for `fit_diverged_iff_decrease`: the concrete run diverges at
iteration 2. -/
theorem fit_diverged_iff_decrease_witness :
    (fitRun csStep 0 3 0).1 = .diverged 2 := by
  refine (fit_diverged_iff_decrease csStep 0 3 0 2).mpr ⟨by norm_num, by norm_num, ?_, ?_⟩
  · show (csStep (iterEM csStep 0 1)).2 < (csStep (iterEM csStep 0 0)).2
    norm_num [iterEM, csStep]
  · intro j h1 h2
    omega

/-- Witness for `diverged_state_post_iteration` on the same concrete run. -/
theorem diverged_state_post_iteration_witness :
    (fitRun csStep 0 3 0).1 = .diverged 2 ∧
      (fitRun csStep 0 3 0).2 = iterEM csStep 0 2 := by
  have h : fitRun csStep 0 3 0 = (.diverged 2, 2) := by
    rw [fitRun, show (3 : ℕ) = 2 + 1 from rfl, fitAux_succ_none,
      show (2 : ℕ) = 1 + 1 from rfl, fitAux_succ_some]
    norm_num [csStep]
  refine ⟨by rw [h], diverged_state_post_iteration csStep 0 3 0 2 (by rw [h])⟩

/-! ### C8: the expected-counts accumulator is a commutative monoid -/

lemma ecAdd_zero (a : ExpCounts) : ecAdd a ecZero = a := by
  cases a
  simp [ecAdd, ecZero]

lemma zero_ecAdd (a : ExpCounts) : ecAdd ecZero a = a := by
  cases a
  simp [ecAdd, ecZero]

lemma ecAdd_assoc (a c d : ExpCounts) : ecAdd (ecAdd a c) d = ecAdd a (ecAdd c d) := by
  cases a; cases c; cases d
  simp only [ecAdd, ExpCounts.mk.injEq]
  refine ⟨?_, ?_, ?_, by ring⟩ <;> funext <;> ring

lemma ecAdd_comm (a c : ExpCounts) : ecAdd a c = ecAdd c a := by
  cases a; cases c
  simp only [ecAdd, ExpCounts.mk.injEq]
  refine ⟨?_, ?_, ?_, by ring⟩ <;> funext <;> ring

lemma foldl_ecAdd_eq : ∀ (l : List ExpCounts) (a : ExpCounts),
    l.foldl ecAdd a = ecAdd a (ecSum l) := by
  intro l
  induction l with
  | nil => intro a; exact (ecAdd_zero a).symm
  | cons x l ih =>
    intro a
    show (l.foldl ecAdd (ecAdd a x)) = _
    rw [ih (ecAdd a x), ecAdd_assoc]
    congr 1
    show ecAdd x (ecSum l) = ecSum (x :: l)
    rw [show ecSum (x :: l) = l.foldl ecAdd (ecAdd ecZero x) from rfl, ih, zero_ecAdd]

lemma ecSum_cons (x : ExpCounts) (l : List ExpCounts) :
    ecSum (x :: l) = ecAdd x (ecSum l) := by
  rw [show ecSum (x :: l) = l.foldl ecAdd (ecAdd ecZero x) from rfl, foldl_ecAdd_eq,
    zero_ecAdd]

lemma ecSum_append (l1 l2 : List ExpCounts) :
    ecSum (l1 ++ l2) = ecAdd (ecSum l1) (ecSum l2) := by
  rw [ecSum, List.foldl_append, foldl_ecAdd_eq]
  rfl

lemma ecSum_flatten : ∀ P : List (List ExpCounts),
    ecSum (P.map ecSum) = ecSum P.flatten := by
  intro P
  induction P with
  | nil => rfl
  | cons h P ih =>
    rw [List.map_cons, ecSum_cons, List.flatten_cons, ecSum_append, ih]

lemma ecSum_perm {l1 l2 : List ExpCounts} (h : l1.Perm l2) : ecSum l1 = ecSum l2 := by
  induction h with
  | nil => rfl
  | cons x _ ih => rw [ecSum_cons, ecSum_cons, ih]
  | swap x y l =>
    rw [ecSum_cons, ecSum_cons, ecSum_cons, ecSum_cons, ← ecAdd_assoc, ← ecAdd_assoc,
      ecAdd_comm y x]
  | trans _ _ ih1 ih2 => rw [ih1, ih2]

/-- C8: the per-worker expected-counts accumulator forms a commutative monoid
under `operator+=`: the fresh all-zero counts with zero log likelihood are a
two-sided identity, and the combine operator is associative and commutative;
consequently, merging per-sequence contributions under any partitioning into
workers and any merge order (any two partitions whose concatenations are
permutations of each other) yields the same aggregate counts and log
likelihood, and hence the same re-estimated chain parameters. -/
theorem expected_counts_monoid :
    (∀ a : ExpCounts, ecAdd a ecZero = a) ∧
    (∀ a : ExpCounts, ecAdd ecZero a = a) ∧
    (∀ a c d : ExpCounts, ecAdd (ecAdd a c) d = ecAdd a (ecAdd c d)) ∧
    (∀ a c : ExpCounts, ecAdd a c = ecAdd c a) ∧
    (∀ P Q : List (List ExpCounts), P.flatten.Perm Q.flatten →
      ecSum (P.map ecSum) = ecSum (Q.map ecSum) ∧
      ∀ K, reestimateChain K (ecSum (P.map ecSum)) =
        reestimateChain K (ecSum (Q.map ecSum))) := by
  refine ⟨ecAdd_zero, zero_ecAdd, ecAdd_assoc, ecAdd_comm, ?_⟩
  intro P Q hperm
  have hsum : ecSum (P.map ecSum) = ecSum (Q.map ecSum) := by
    rw [ecSum_flatten, ecSum_flatten]
    exact ecSum_perm hperm
  exact ⟨hsum, fun K => by rw [hsum]⟩

/-- A first concrete accumulator for the witness. -/
def ecW1 : ExpCounts := ⟨fun _ _ => 1, fun _ => 2, fun _ _ => 3, 4⟩

/-- A second concrete accumulator for the witness. -/
def ecW2 : ExpCounts := ⟨fun _ _ => 5, fun _ => 6, fun _ _ => 7, 8⟩

/-- Witness for `expected_counts_monoid`: two partitions of the same two
accumulators merge to the same aggregate. -/
theorem expected_counts_monoid_witness :
    (([[ecW1], [ecW2]] : List (List ExpCounts)).flatten.Perm
      ([[ecW2, ecW1]] : List (List ExpCounts)).flatten) ∧
    ecSum ([[ecW1], [ecW2]].map ecSum) = ecSum ([[ecW2, ecW1]].map ecSum) := by
  have hperm : (([[ecW1], [ecW2]] : List (List ExpCounts)).flatten).Perm
      (([[ecW2, ecW1]] : List (List ExpCounts)).flatten) := by
    show ([ecW1, ecW2] : List ExpCounts).Perm [ecW2, ecW1]
    exact List.Perm.swap ecW2 ecW1 []
  exact ⟨hperm, (expected_counts_monoid.2.2.2.2 [[ecW1], [ecW2]] [[ecW2, ecW1]] hperm).1⟩

/-! ### C9: construction and the state-count invariant -/

/-- C9: both non-deserializing constructors fail with the configuration error
precisely when the supplied emission model's reported state count differs from
the requested number of hidden states; on success the emission model and the
Markov chain both report the requested count `K`; and the wholesale parameter
replacement performed by each fit iteration preserves both reported counts,
so the equality holds for the model's lifetime. -/
theorem construction_state_count_invariant :
    (∀ (n : ℕ) (ip : ℕ → ℚ) (tp : ℕ → ℕ → ℚ) (obs : ObsDistE),
      (∃ e, hmmRandomInit n ip tp obs = .error e) ↔ obs.numStates ≠ n) ∧
    (∀ (n : ℕ) (obs : ObsDistE),
      (∃ e, hmmUniformInit n obs = .error e) ↔ obs.numStates ≠ n) ∧
    (∀ (n : ℕ) (ip : ℕ → ℚ) (tp : ℕ → ℕ → ℚ) (obs : ObsDistE) (h : HMME),
      hmmRandomInit n ip tp obs = .ok h →
        h.obsDist.numStates = n ∧ h.model.numStates = n) ∧
    (∀ (n : ℕ) (obs : ObsDistE) (h : HMME),
      hmmUniformInit n obs = .ok h →
        h.obsDist.numStates = n ∧ h.model.numStates = n) ∧
    (∀ (h : HMME) (cs : List ExpCounts),
      (cs.foldl emReplace h).obsDist.numStates = h.obsDist.numStates ∧
      (cs.foldl emReplace h).model.numStates = h.model.numStates) := by
  refine ⟨?_, ?_, ?_, ?_, ?_⟩
  · intro n ip tp obs
    constructor
    · rintro ⟨e, he⟩
      rw [hmmRandomInit] at he
      by_cases hc : obs.numStates ≠ n
      · exact hc
      · rw [if_neg hc] at he
        exact absurd he (by simp)
    · intro hc
      exact ⟨.statesMismatch, by rw [hmmRandomInit, if_pos hc]⟩
  · intro n obs
    constructor
    · rintro ⟨e, he⟩
      rw [hmmUniformInit] at he
      by_cases hc : obs.numStates ≠ n
      · exact hc
      · rw [if_neg hc] at he
        exact absurd he (by simp)
    · intro hc
      exact ⟨.statesMismatch, by rw [hmmUniformInit, if_pos hc]⟩
  · intro n ip tp obs h hok
    rw [hmmRandomInit] at hok
    by_cases hc : obs.numStates ≠ n
    · rw [if_pos hc] at hok
      exact absurd hok (by simp)
    · rw [if_neg hc] at hok
      have hh : (⟨obs, ⟨n, ip, tp⟩⟩ : HMME) = h := by
        injection hok
      rw [← hh]
      exact ⟨not_ne_iff.mp hc, rfl⟩
  · intro n obs h hok
    rw [hmmUniformInit] at hok
    by_cases hc : obs.numStates ≠ n
    · rw [if_pos hc] at hok
      exact absurd hok (by simp)
    · rw [if_neg hc] at hok
      have hh : (⟨obs, ⟨n, fun _ => 1 / (n : ℚ), fun _ _ => 1 / (n : ℚ)⟩⟩ : HMME) = h := by
        injection hok
      rw [← hh]
      exact ⟨not_ne_iff.mp hc, rfl⟩
  · intro h cs
    induction cs generalizing h with
    | nil => exact ⟨rfl, rfl⟩
    | cons c cs ih =>
      rw [List.foldl_cons]
      exact ih (emReplace h c)

/-- Witness for `construction_state_count_invariant`: a successful
two-state construction reports two states on both members. -/
theorem construction_state_count_invariant_witness :
    hmmRandomInit 2 (fun _ => 1/2) (fun _ _ => 1/2) ⟨2, fun _ _ => 0⟩ =
      .ok ⟨⟨2, fun _ _ => 0⟩, ⟨2, fun _ => 1/2, fun _ _ => 1/2⟩⟩ ∧
    ((⟨⟨2, fun _ _ => 0⟩, ⟨2, fun _ => 1/2, fun _ _ => 1/2⟩⟩ : HMME).obsDist.numStates = 2 ∧
     (⟨⟨2, fun _ _ => 0⟩, ⟨2, fun _ => 1/2, fun _ _ => 1/2⟩⟩ : HMME).model.numStates = 2) := by
  have hok : hmmRandomInit 2 (fun _ => 1/2) (fun _ _ => 1/2) ⟨2, fun _ _ => 0⟩ =
      .ok ⟨⟨2, fun _ _ => 0⟩, ⟨2, fun _ => 1/2, fun _ _ => 1/2⟩⟩ := by
    rw [hmmRandomInit, if_neg (by norm_num)]
  exact ⟨hok, construction_state_count_invariant.2.2.1 2 _ _ _ _ hok⟩

/-- Witness for `forward_pass_columns` at the concrete scenario
(`t = 1`, `s = 0`). -/
theorem forward_pass_columns_witness :
    ((0 : ℕ) < c3m.K) ∧
    (scaleF c3m c3b 0 = ∑ j in Finset.range c3m.K, c3m.init j * c3b 0 j ∧
     fwdP c3m c3b 0 0 = c3m.init 0 * c3b 0 0 / scaleF c3m c3b 0 ∧
     (1 ≤ 1 → scaleF c3m c3b 1 =
       ∑ j in Finset.range c3m.K, c3b 1 j *
         ∑ k in Finset.range c3m.K, fwdP c3m c3b (1 - 1) k * c3m.trans k j) ∧
     (1 ≤ 1 → fwdP c3m c3b 1 0 =
       c3b 1 0 * (∑ k in Finset.range c3m.K, fwdP c3m c3b (1 - 1) k * c3m.trans k 0) /
         scaleF c3m c3b 1)) :=
  ⟨by norm_num [c3m], forward_pass_columns c3m c3b 1 0 (by norm_num [c3m])⟩

/-- Witness for `backward_pass_columns` at the concrete scenario
(`T = 2`, `t = 0`, `i = 0`). -/
theorem backward_pass_columns_witness :
    ((0 : ℕ) < c3m.K) ∧
    (bwdP c3m c3b 2 (2 - 1) 0 = 1 ∧
     (0 < 2 - 1 → bwdP c3m c3b 2 0 0 =
       scaleF c3m c3b (0 + 1) * ∑ j in Finset.range c3m.K,
         bwdP c3m c3b 2 (0 + 1) j * c3m.trans 0 j * c3b (0 + 1) j)) :=
  ⟨by norm_num [c3m], backward_pass_columns c3m c3b 2 0 0 (by norm_num [c3m])⟩

end MetaHMM
